import Mathlib

/-!
Verification of the beefy-bi streaming import engine against its
natural-language specification.

The embedding follows the TypeScript sources under `src/`:
`protocol/common/connector/import-queries.ts` (query planner),
`protocol/common/utils/batch-rpc-calls.ts` (batch-RPC operator),
`protocol/common/connector/erc20-transfers.ts` (transfer fetcher),
`protocol/common/loader/import-state.ts` (import-state update) and
`protocol/common/loader/block-ranges-import-status.ts`.

The range algebra (`utils/range.ts`) and `utils/import-ranges.ts` are not
part of the available sources; those functions are modelled from the
specification (spec §3.1, §3.2, §4.1) and marked as such below.
-/

namespace BeefyBI

/-- A half-open-named but inclusive-on-both-ends numeric range `{from, to}`
(spec §3.1, §6.2).  The source field `from` is a Lean keyword, so it is
called `frm` here, and `to` is likewise reserved, so it is called `toB`. -/
structure NRange where
  frm : Int
  toB : Int
deriving DecidableEq, Repr

/-- Modelled from the spec: `contains(v)` for an inclusive range (spec §3.1,
§6.2); source name `isInRange` in `utils/range.ts`. -/
def isInRange (r : NRange) (v : Int) : Prop :=
  r.frm ≤ v ∧ v ≤ r.toB

instance (r : NRange) (v : Int) : Decidable (isInRange r v) := by
  unfold isInRange; infer_instance

/-- Invariant `from ≤ to` (spec §3.1). -/
def isValidRange (r : NRange) : Prop :=
  r.frm ≤ r.toB

instance (r : NRange) : Decidable (isValidRange r) := by
  unfold isValidRange; infer_instance

/-- A value is covered by some range of the list. -/
def coveredBy (l : List NRange) (v : Int) : Prop :=
  ∃ r ∈ l, isInRange r v

instance (l : List NRange) (v : Int) : Decidable (coveredBy l v) := by
  unfold coveredBy; infer_instance

/-- Insert a range into a list sorted by `frm`, after any range with an
equal or smaller `frm` (stable insertion). -/
def orderedInsertByFrom (x : NRange) : List NRange → List NRange
  | [] => [x]
  | y :: rest => if x.frm < y.frm then x :: y :: rest else y :: orderedInsertByFrom x rest

/-- Modelled from the spec: `rangeSort` sorts a range list by `from`,
stably (spec §3.1 "sort: by from", §4.5 "stable order is preserved"). -/
def rangeSort (l : List NRange) : List NRange :=
  l.foldl (fun acc x => orderedInsertByFrom x acc) []

/-- Collapse a run of ranges into merged ranges, merging the current
accumulator with the next range whenever they overlap or are adjacent
(numeric adjacency `to + 1 == from`, spec §4.1). -/
def rangeMergeGo (cur : NRange) : List NRange → List NRange
  | [] => [cur]
  | x :: rest =>
      if x.frm ≤ cur.toB + 1 then rangeMergeGo ⟨cur.frm, max cur.toB x.toB⟩ rest
      else cur :: rangeMergeGo x rest

/-- Modelled from the spec: `rangeMerge` collapses overlapping or adjacent
ranges of a list, returning a sorted, non-overlapping, non-adjacent list
(spec §3.1, §4.1). -/
def rangeMerge (l : List NRange) : List NRange :=
  match rangeSort l with
  | [] => []
  | x :: rest => rangeMergeGo x rest

/-- Modelled from the spec: `rangeExclude` is set-subtraction of one range
from another, `contains(result, x) ⇔ contains(A, x) ∧ ¬contains(B, x)`
(spec §4.1). -/
def rangeExclude (r e : NRange) : List NRange :=
  if e.toB < r.frm ∨ r.toB < e.frm then [r]
  else
    (if r.frm < e.frm then [⟨r.frm, e.frm - 1⟩] else []) ++
    (if e.toB < r.toB then [⟨e.toB + 1, r.toB⟩] else [])

/-- Modelled from the spec: `rangeArrayExclude` subtracts a range list from
a range list (spec §3.1 "exclude: set-subtraction of a range list from
another"). -/
def rangeArrayExclude (ranges excl : List NRange) : List NRange :=
  excl.foldl (fun rs e => rs.flatMap (fun r => rangeExclude r e)) ranges

/-- Modelled from the spec: split one range into a chain of adjacent
subranges of length at most `n`, chopping from the left (spec §3.1
"split-to-max-length", §4.1 "output lengths ≤ N, union equals input";
length of an inclusive numeric range is `to − from + 1`, spec §6.2). -/
def rangeSplitGo (n : Nat) : Nat → NRange → List NRange
  | 0, r => [r]
  | fuel + 1, r =>
      if r.toB - r.frm + 1 ≤ (n : Int) then [r]
      else if n = 0 then [r]
      else ⟨r.frm, r.frm + (n : Int) - 1⟩ :: rangeSplitGo n fuel ⟨r.frm + (n : Int), r.toB⟩

/-- See `rangeSplitGo`; the fuel `(to − from).toNat` dominates the number
of chops, each of which advances `from` by `n ≥ 1`, so the `0` fuel case
(where the remaining range has at most one value and is returned whole) is
only reached when no further chop is due. -/
def rangeSplitToMaxLength (n : Nat) (r : NRange) : List NRange :=
  rangeSplitGo n (r.toB - r.frm).toNat r

/-- Modelled from the spec: split every range of a list to the maximum
length (spec §3.1). -/
def rangeSplitManyToMaxLength (ranges : List NRange) (n : Nat) : List NRange :=
  ranges.flatMap (rangeSplitToMaxLength n)

/-- Modelled from the spec: `rangeValueMax` returns the maximum of a list
of range values, used for the "latest block seen" cursor (spec §3.3);
the source helper lives in `utils/range.ts`, not under `src/`. -/
def rangeValueMax (l : List Int) : Option Int :=
  l.max?

/-! ### Query planner (`protocol/common/connector/import-queries.ts`) -/

/-- The fixed block-propagation safety margin `waitForBlockPropagation = 5`
(`import-queries.ts`, used in `addLatestBlockQuery$` and
`addHistoricalBlockQuery$`). -/
def waitForBlockPropagation : Int := 5

/-- One hour in milliseconds, `samplingPeriodMs["1hour"]`
(`types/sampling.ts`, value forced by the name). -/
def samplingPeriod1hourMs : Nat := 3600000

/-- `restrictRangesWithImportState` (`import-queries.ts` lines 267-294):
exclude the covered ranges, split to the maximum length, sort newest first,
then append the import state's `toRetry` ranges (split, sorted and
reversed), and truncate to `MAX_RANGES_PER_PRODUCT_TO_GENERATE` (a config
constant, taken here as the parameter `maxRangesPerProduct`).  The import
state is passed as its `coveredRanges` and `toRetry` components. -/
def restrictRangesWithImportState (ranges coveredRanges toRetry : List NRange)
    (maxRangeLength maxRangesPerProduct : Nat) : List NRange :=
  let r1 := rangeArrayExclude ranges coveredRanges
  let r2 := rangeSplitManyToMaxLength r1 maxRangeLength
  let r3 := (rangeSort r2).reverse
  let rangesToRetry := (rangeSort (rangeSplitManyToMaxLength toRetry maxRangeLength)).reverse
  let all := r3 ++ rangesToRetry
  if all.length > maxRangesPerProduct then all.take maxRangesPerProduct else all

/-- The second variant of `restrictRangesWithImportState`
(`import-queries.ts` lines 569-592): identical except that the `toRetry`
ranges are appended in their stored order, split but neither sorted nor
reversed. -/
def restrictRangesWithImportStateOld (ranges coveredRanges toRetry : List NRange)
    (maxRangeLength maxRangesPerProduct : Nat) : List NRange :=
  let r1 := rangeArrayExclude ranges coveredRanges
  let r2 := rangeSplitManyToMaxLength r1 maxRangeLength
  let r3 := (rangeSort r2).reverse
  let rangesToRetry := rangeSplitManyToMaxLength toRetry maxRangeLength
  let all := r3 ++ rangesToRetry
  if all.length > maxRangesPerProduct then all.take maxRangesPerProduct else all

/-- The block-range computation of `addLatestBlockQuery$`
(`import-queries.ts` lines 46-68): fetch at most the last hour of blocks,
bounded by `CHAIN_RPC_MAX_QUERY_BLOCKS` (parameter `maxBlocksPerQuery`) and
by the distance to the last imported block, shifted down by the
propagation margin.  The JavaScript guard `lastImportedBlockNumber ? ... :
Infinity` is falsy both for `null` and for `0`, hence the explicit zero
test; `Infinity` makes the third `Math.min` argument vanish. -/
def latestBlockQuery (maxBlocksPerQuery msPerBlockEstimate : Nat)
    (lastImportedBlockNumber : Option Int) (latestBlockNumber : Int) : NRange :=
  let periodInBlockCountEstimate : Nat := samplingPeriod1hourMs / msPerBlockEstimate
  let baseCount : Int := min (maxBlocksPerQuery : Int) (periodInBlockCountEstimate : Int)
  let blockCountToFetch : Int :=
    match lastImportedBlockNumber with
    | some n => if n ≠ 0 then min baseCount (latestBlockNumber - (n + 1)) else baseCount
    | none => baseCount
  let fromBlock := latestBlockNumber - blockCountToFetch
  let toBlock := latestBlockNumber
  ⟨fromBlock - waitForBlockPropagation, toBlock - waitForBlockPropagation⟩

/-- Exclusion of `[{from: forceCurrentBlockNumber, to: Infinity}]`, the
forced-block clamp of `addHistoricalBlockQuery$` (`import-queries.ts` line
110), expressed directly since the embedded ranges are finite. -/
def rangeExcludeFromValueUp (r : NRange) (b : Int) : List NRange :=
  if r.toB < b then [r]
  else if r.frm < b then [⟨r.frm, b - 1⟩]
  else []

/-- `rangeArrayExclude(ranges, [{from: b, to: Infinity}])`. -/
def rangeArrayExcludeFromValueUp (rs : List NRange) (b : Int) : List NRange :=
  rs.flatMap (fun r => rangeExcludeFromValueUp r b)

/-- The range computation of `addHistoricalBlockQuery$` (`import-queries.ts`
lines 88-113): full range from the import state's first block to
`latestBlockNumber − waitForBlockPropagation`, restricted with the import
state, then clamped below a forced current block number when present. -/
def historicalBlockQuery (firstBlockNumber latestBlockNumber : Int)
    (coveredRanges toRetry : List NRange) (maxBlocksPerQuery maxRangesPerProduct : Nat)
    (forceCurrentBlockNumber : Option Int) : List NRange :=
  let fullRange : NRange := ⟨firstBlockNumber, latestBlockNumber - waitForBlockPropagation⟩
  let ranges := restrictRangesWithImportState [fullRange] coveredRanges toRetry
    maxBlocksPerQuery maxRangesPerProduct
  match forceCurrentBlockNumber with
  | none => ranges
  | some b => rangeArrayExcludeFromValueUp ranges b

/-- Stable insertion sort on integers ascending, `lodash.sortBy` on
`interpolated_block_number`. -/
def orderedInsertInt (x : Int) : List Int → List Int
  | [] => [x]
  | y :: rest => if x < y then x :: y :: rest else y :: orderedInsertInt x rest

/-- `sortBy(blockList, b => b.interpolated_block_number)`. -/
def sortIntList (l : List Int) : List Int :=
  l.foldl (fun acc x => orderedInsertInt x acc) []

/-- The range construction of `addRegularIntervalBlockRangesQueries`
(`import-queries.ts` lines 193-244), for one item, once the chain block
list and the latest block number have been fetched.  The block list is
given by its `interpolated_block_number`s.  Steps, as in the source:
filter blocks before contract creation; form consecutive ranges (the
source reads the lower bound from the sorted list but the upper bound
from the unsorted one, reproduced here with `List.zip`); prepend the range
from the contract creation block and append the range up to
`latestBlockNumber`; drop invalid ranges; restrict with the import state
(`rangeMaxLength` stands for `min(avgBlockPerTimeStep, maxBlocksPerQuery)`
computed from config constants). -/
def regularIntervalBlockRanges (contractCreatedAtBlock : Int) (blockListInput : List Int)
    (latestBlockNumber : Int) (coveredRanges toRetry : List NRange)
    (rangeMaxLength maxRangesPerProduct : Nat) : List NRange :=
  let blockList := blockListInput.filter (fun b => contractCreatedAtBlock ≤ b)
  let sorted := sortIntList blockList
  let ranges0 := (sorted.zip blockList.tail).map (fun p => (⟨p.1, p.2 - 1⟩ : NRange))
  let withEnds :=
    match blockList with
    | [] => ranges0
    | b :: bs =>
        let minDbBlock := bs.foldl min b
        let maxDbBlock := bs.foldl max b
        (⟨contractCreatedAtBlock, minDbBlock - 1⟩ : NRange) :: ranges0 ++
          [(⟨maxDbBlock + 1, latestBlockNumber⟩ : NRange)]
  let valid := withEnds.filter (fun r => r.frm ≤ r.toB)
  restrictRangesWithImportState valid coveredRanges toRetry rangeMaxLength maxRangesPerProduct

/-! ### Import ranges and the import-state update
(`protocol/common/loader/import-state.ts` and `utils/import-ranges.ts`) -/

/-- The import-ranges tuple `{coveredRanges, toRetry, lastImportDate}`
(spec §3.2); the timestamp is carried as an integer. -/
structure ImportRanges where
  lastImportDate : Int
  coveredRanges : List NRange
  toRetry : List NRange
deriving DecidableEq, Repr

/-- The update payload `{coveredRanges, successRanges, errorRanges,
lastImportDate}` handed to `updateImportRanges` (spec §3.2). -/
structure ImportRangesUpdate where
  coveredRanges : List NRange
  successRanges : List NRange
  errorRanges : List NRange
  lastImportDate : Int
deriving DecidableEq, Repr

/-- Modelled from the spec: `updateImportRanges` (`utils/import-ranges.ts`,
not under `src/`) produces `coveredRanges' = merge(coveredRanges ∪ C)` and
`toRetry' = merge((toRetry ∪ E) \ S)` (spec §3.2). -/
def updateImportRanges (cur : ImportRanges) (upd : ImportRangesUpdate) : ImportRanges :=
  { lastImportDate := upd.lastImportDate
    coveredRanges := rangeMerge (cur.coveredRanges ++ upd.coveredRanges)
    toRetry := rangeMerge (rangeArrayExclude (cur.toRetry ++ upd.errorRanges) upd.successRanges) }

/-- One pipeline item entering `updateImportState$`: its block range, the
per-item `success` flag, and the latest block number it reports
(`ImportRangeResult` in `types/import-query.ts`). -/
structure ImportRangeResultItem where
  range : NRange
  success : Bool
  latest : Int
deriving DecidableEq, Repr

/-- The ranges part of `mergeImportState` (`import-state.ts` lines
173-186): `coveredRanges` are all item ranges, `successRanges` and
`errorRanges` the merged ranges of the successful resp. failed items. -/
def mergeImportStateRanges (cur : ImportRanges) (items : List ImportRangeResultItem)
    (lastImportDate : Int) : ImportRanges :=
  updateImportRanges cur
    { coveredRanges := items.map (fun i => i.range)
      successRanges := rangeMerge ((items.filter (fun i => i.success)).map (fun i => i.range))
      errorRanges := rangeMerge ((items.filter (fun i => !i.success)).map (fun i => i.range))
      lastImportDate := lastImportDate }

/-- The `chainLatestBlockNumber` part of `mergeImportState`
(`import-state.ts` lines 188-194):
`rangeValueMax(items.map(latest).concat([previous])) || 0`.  The JavaScript
`|| 0` turns both `undefined` and `0` into `0`, which `Option.getD 0`
reproduces because the list is never empty and a zero maximum is `0`
already. -/
def mergeImportStateChainLatest (previous : Int) (items : List ImportRangeResultItem) : Int :=
  (rangeValueMax ((items.map (fun i => i.latest)) ++ [previous])).getD 0

/-! ### Batch-RPC operator (`protocol/common/utils/batch-rpc-calls.ts`) -/

/-- The per-batch body of `batchRpcCalls$` (lines 63-115) looks up every
item's query in the result map; the source throws `ProgrammerError` at the
first missing result, which the enclosing `try` catches.  `collectOutputs`
returns `none` exactly when such a throw happens, `some outputs`
otherwise. -/
def collectOutputs {TObj TQueryObj TQueryResp TRes : Type}
    (getQuery : TObj → TQueryObj) (formatOutput : TObj → TQueryResp → TRes) :
    List TObj → (TQueryObj → Option TQueryResp) → Option (List TRes)
  | [], _ => some []
  | o :: rest, resultMap =>
      match resultMap (getQuery o), collectOutputs getQuery formatOutput rest resultMap with
      | some r, some rs => some (formatOutput o r :: rs)
      | _, _ => none

/-- The per-batch step of `batchRpcCalls$` (lines 63-115): the RPC call
either fails terminally (`Except.error`) or returns a result map.  On
failure, and on a `ProgrammerError` thrown for a missing result, the
`catch` block emits every object of the batch as an error and emits no
output (`return Rx.EMPTY`); otherwise each object yields exactly one
`formatOutput` value.  The returned pair is
`(emitted outputs, objects handed to emitErrors)`. -/
def batchRpcStep {TObj TQueryObj TQueryResp TRes RpcError : Type}
    (getQuery : TObj → TQueryObj) (formatOutput : TObj → TQueryResp → TRes)
    (objs : List TObj) (callResult : Except RpcError (TQueryObj → Option TQueryResp)) :
    List TRes × List TObj :=
  match callResult with
  | .error _ => ([], objs)
  | .ok resultMap =>
      match collectOutputs getQuery formatOutput objs resultMap with
      | some outs => (outs, [])
      | none => ([], objs)

/-- The JSON-RPC methods declarable in `rpcCallsPerInputObj`
(`RpcCallMethod` in `types/rpc-config.ts`). -/
inductive RpcCallMethod where
  | eth_call
  | eth_getLogs
  | eth_getBlockByNumber
  | eth_blockNumber
  | eth_getTransactionReceipt
deriving DecidableEq, Repr

/-- Result of `getBatchConfigFromLimitations`. -/
structure BatchConfig where
  maxInputObjsPerBatch : Nat
  canUseBatchProvider : Bool
deriving DecidableEq, Repr

/-- The method loop of `getBatchConfigFromLimitations` (`batch-rpc-calls.ts`
lines 140-161): entries with `count <= 0` are skipped; a `null` limitation
disables the batch provider and breaks out of the loop; otherwise the
capacity becomes `min(capacity, ⌊maxCount / count⌋)`. -/
def batchConfigLoop (methodLimitations : RpcCallMethod → Option Nat) :
    List (RpcCallMethod × Nat) → Nat → Nat × Bool
  | [], cap => (cap, true)
  | (m, count) :: rest, cap =>
      if count = 0 then batchConfigLoop methodLimitations rest cap
      else
        match methodLimitations m with
        | none => (cap, false)
        | some maxCount => batchConfigLoop methodLimitations rest (min cap (maxCount / count))

/-- `getBatchConfigFromLimitations` (`batch-rpc-calls.ts` lines 128-184):
run the method loop from `maxInputObjsPerBatch`; when batching got
disabled, fall back to `max(1, ⌊maxInputObjsPerBatch / 10⌋)` for a
`no-limit` RPC (`minDelayBetweenCalls = none` here) and to `1` otherwise,
both computed from the original `maxInputObjsPerBatch`. -/
def getBatchConfigFromLimitations (maxInputObjsPerBatch : Nat)
    (rpcCallsPerInputObj : List (RpcCallMethod × Nat))
    (methodLimitations : RpcCallMethod → Option Nat)
    (minDelayBetweenCalls : Option Nat) : BatchConfig :=
  let (cap, canUseBatchProvider) :=
    batchConfigLoop methodLimitations rpcCallsPerInputObj maxInputObjsPerBatch
  if canUseBatchProvider then
    ⟨cap, true⟩
  else
    match minDelayBetweenCalls with
    | none => ⟨max 1 (maxInputObjsPerBatch / 10), false⟩
    | some _ => ⟨1, false⟩

/-- The claim's description of the capacity computation, written from its
words for comparison with `getBatchConfigFromLimitations`: starting from
`maxInputTake`, `cap ← min(cap, ⌊limits.methods[m] / count⌋)` for each
method with `count > 0`; if any used method's limit is null, batching is
disabled and `cap = max(1, ⌊maxInputTake / 10⌋)` under `no-limit`,
otherwise `cap = 1`. -/
def batchConfigSpec (maxInputTake : Nat)
    (rpcCallsPerInputObj : List (RpcCallMethod × Nat))
    (methodLimitations : RpcCallMethod → Option Nat)
    (minDelayBetweenCalls : Option Nat) : BatchConfig :=
  if rpcCallsPerInputObj.any (fun p => 0 < p.2 && (methodLimitations p.1).isNone) then
    match minDelayBetweenCalls with
    | none => ⟨max 1 (maxInputTake / 10), false⟩
    | some _ => ⟨1, false⟩
  else
    ⟨rpcCallsPerInputObj.foldl
      (fun cap p => if p.2 = 0 then cap else min cap ((methodLimitations p.1).getD 0 / p.2))
      maxInputTake, true⟩

/-! ### ERC-20 transfer merging
(`protocol/common/connector/erc20-transfers.ts`, `fetchERC20TransferEvents`) -/

/-- A decoded per-owner transfer record before merging, `TransferWithLogIndex`
(`erc20-transfers.ts` line 177); `amountTransfered` is the signed,
decimals-scaled amount (negative for the sender, positive for the
receiver), carried as an integer since the example amounts are integral
and `Decimal` arithmetic is exact on them. -/
structure TransferWithLogIndex where
  chain : String
  tokenAddress : String
  tokenDecimals : Nat
  ownerAddress : String
  blockNumber : Int
  transactionHash : String
  amountTransfered : Int
  logIndex : Int
deriving DecidableEq, Repr

/-- The merged record produced per `(token, owner, block)` group
(`erc20-transfers.ts` line 221): the spread of the group's first element
after the in-place sort, with `transactionHash` replaced and the net total
added as the extra field `sharesBalanceDiff`. -/
structure MergedTransfer extends TransferWithLogIndex where
  sharesBalanceDiff : Int
deriving DecidableEq, Repr

/-- The grouping key `${tokenAddress}-${ownerAddress}-${blockNumber}`
(`erc20-transfers.ts` line 210), as the triple it encodes. -/
def transferGroupKey (t : TransferWithLogIndex) : String × String × Int :=
  (t.tokenAddress, t.ownerAddress, t.blockNumber)

/-- Stable descending insertion by `logIndex`, the comparator
`(a, b) => b.logIndex - a.logIndex`. -/
def insertByLogIndexDesc (x : TransferWithLogIndex) :
    List TransferWithLogIndex → List TransferWithLogIndex
  | [] => [x]
  | y :: rest => if y.logIndex < x.logIndex then x :: y :: rest
      else y :: insertByLogIndexDesc x rest

/-- `transfers.sort((a, b) => b.logIndex - a.logIndex)`. -/
def sortByLogIndexDesc (l : List TransferWithLogIndex) : List TransferWithLogIndex :=
  l.foldl (fun acc x => insertByLogIndexDesc x acc) []

/-- The keys of a list in first-occurrence order, as `lodash.groupBy`
enumerates its groups; the fuel dominates the list length (filtering only
shortens the tail), so the `0` case is only reached on the empty list. -/
def firstOccurrenceKeysGo {α κ : Type} [DecidableEq κ] (key : α → κ) :
    Nat → List α → List κ
  | 0, _ => []
  | _, [] => []
  | fuel + 1, a :: rest =>
      key a :: firstOccurrenceKeysGo key fuel (rest.filter (fun b => key b ≠ key a))

/-- See `firstOccurrenceKeysGo`. -/
def firstOccurrenceKeys {α κ : Type} [DecidableEq κ] (key : α → κ) (l : List α) : List κ :=
  firstOccurrenceKeysGo key l.length l

/-- `lodash.groupBy` by a key function: the groups in first-occurrence
order, each group keeping list order. -/
def groupByKey {α κ : Type} [DecidableEq κ] (key : α → κ) (l : List α) : List (List α) :=
  (firstOccurrenceKeys key l).map (fun k => l.filter (fun a => key a = k))

/-- The merge of one `(token, owner, block)` group (`erc20-transfers.ts`
lines 212-222): `totalDiff` is the sum of the group's signed amounts; the
group is then sorted in place descending by `logIndex`, so the spread
`...transfers[0]` reads the highest-`logIndex` element; `transactionHash`
is that element's hash and `totalDiff` is stored in the extra field
`sharesBalanceDiff` while `amountTransfered` keeps the spread value. -/
def mergeTransferGroup (g : List TransferWithLogIndex) : Option MergedTransfer :=
  let totalDiff := (g.map (fun t => t.amountTransfered)).sum
  match sortByLogIndexDesc g with
  | [] => none
  | t :: _ => some { t with transactionHash := t.transactionHash, sharesBalanceDiff := totalDiff }

/-- The merging step of `fetchERC20TransferEvents` (`erc20-transfers.ts`
lines 207-222): group the decoded per-owner records by
`(token, owner, block)` and merge each group. -/
def mergeTransfersByOwnerAndBlock (events : List TransferWithLogIndex) : List MergedTransfer :=
  (groupByKey transferGroupKey events).filterMap mergeTransferGroup

/-! ### Import-state update transaction retry
(`protocol/common/loader/import-state.ts`, `updateImportState$` lines
204-307) -/

/-- Database errors distinguished by the update transaction: the
`ConnectionTimeoutError` of `utils/async.ts`, and everything else. -/
inductive DbUpdateError where
  | connectionTimeout
  | other
deriving DecidableEq, Repr

/-- The `backOff` options used by `updateImportState$` (`import-state.ts`
lines 266-280). -/
structure BackoffConfig where
  delayFirstAttempt : Bool
  startingDelay : Nat
  timeMultiple : Nat
  maxDelay : Nat
  numOfAttempts : Nat
  jitter : String
deriving DecidableEq, Repr

/-- `{delayFirstAttempt: false, startingDelay: 500, timeMultiple: 5,
maxDelay: 1000, numOfAttempts: 10, jitter: "full"}`. -/
def updateImportStateBackoffConfig : BackoffConfig :=
  ⟨false, 500, 5, 1000, 10, "full"⟩

/-- The `retry` predicate of the `backOff` call: retry exactly on
`ConnectionTimeoutError` (`import-state.ts` lines 273-279). -/
def updateImportStateRetryOn : DbUpdateError → Bool
  | .connectionTimeout => true
  | .other => false

/-- Timeouts of the update transaction (`import-state.ts` lines 258-259):
`connectTimeoutMs = 5000`, `queryTimeoutMs = 2000`. -/
def updateImportStateConnectTimeoutMs : Nat := 5000

/-- See `updateImportStateConnectTimeoutMs`. -/
def updateImportStateQueryTimeoutMs : Nat := 2000

/-- The control flow of the `exponential-backoff` library's `backOff`:
attempt `i` runs `att i`; a success returns; a failure retries while the
`retry` predicate holds and attempts remain.  `fuel` counts the retries
still allowed, so `backOffRun att retry (n-1) 0` makes at most `n`
attempts.  Returns the final outcome and the number of attempts made.
Delays (exponential, jittered) do not affect the outcome and are carried
only in `BackoffConfig`. -/
def backOffRun {α : Type} (att : Nat → Except DbUpdateError α) (retry : DbUpdateError → Bool) :
    Nat → Nat → Except DbUpdateError α × Nat
  | 0, i => (att i, i + 1)
  | fuel + 1, i =>
      match att i with
      | .ok a => (.ok a, i + 1)
      | .error e => if retry e then backOffRun att retry fuel (i + 1) else (.error e, i + 1)

/-- `backOff(work, options)` with `numOfAttempts` total attempts. -/
def backOff {α : Type} (att : Nat → Except DbUpdateError α) (retry : DbUpdateError → Bool)
    (numOfAttempts : Nat) : Except DbUpdateError α × Nat :=
  backOffRun att retry (numOfAttempts - 1) 0

/-- Outcome of one buffered batch of `updateImportState$`: which items were
handed to `emitErrors`, which new import states were written, and how many
transaction attempts ran. -/
structure UpdateStepResult (Item State : Type) where
  emittedErrors : List Item
  writtenStates : List State
  attemptsMade : Nat

/-- The `try`/`catch` around the retried transaction (`import-state.ts`
lines 265-301): on success the new import states are written and returned;
when the backoff exhausts with `ConnectionTimeoutError`, every item of the
batch is passed to `emitErrors` and nothing is written; any other error is
rethrown. -/
def updateImportStateStep {Item State : Type} (items : List Item)
    (att : Nat → Except DbUpdateError (List State)) :
    Except DbUpdateError (UpdateStepResult Item State) :=
  match backOff att updateImportStateRetryOn updateImportStateBackoffConfig.numOfAttempts with
  | (.ok states, n) => .ok ⟨[], states, n⟩
  | (.error .connectionTimeout, n) => .ok ⟨items, [], n⟩
  | (.error e, _) => .error e

/-! ## Theorems -/

/-! ### Helper lemmas on the batch-RPC step -/

theorem collectOutputs_length {TObj TQ TR TRes : Type} (gq : TObj → TQ)
    (fo : TObj → TR → TRes) :
    ∀ (objs : List TObj) (m : TQ → Option TR) (outs : List TRes),
      collectOutputs gq fo objs m = some outs → outs.length = objs.length := by
  intro objs
  induction objs with
  | nil => intro m outs h; simp [collectOutputs] at h; simp [← h]
  | cons a rest ih =>
      intro m outs h
      simp only [collectOutputs] at h
      cases hm : m (gq a) with
      | none => rw [hm] at h; exact absurd h (by simp)
      | some r =>
          rw [hm] at h
          cases hrec : collectOutputs gq fo rest m with
          | none => rw [hrec] at h; exact absurd h (by simp)
          | some rs =>
              rw [hrec] at h
              simp only [Option.some.injEq] at h
              subst h
              simp [ih m rs hrec]

theorem collectOutputs_get {TObj TQ TR TRes : Type} (gq : TObj → TQ)
    (fo : TObj → TR → TRes) :
    ∀ (objs : List TObj) (m : TQ → Option TR) (outs : List TRes),
      collectOutputs gq fo objs m = some outs →
      ∀ i : Fin objs.length, ∃ res, m (gq (objs.get i)) = some res ∧
        outs[i.val]? = some (fo (objs.get i) res) := by
  intro objs
  induction objs with
  | nil => intro m outs _ i; exact absurd i.isLt (by simp)
  | cons a rest ih =>
      intro m outs h i
      simp only [collectOutputs] at h
      cases hm : m (gq a) with
      | none => rw [hm] at h; exact absurd h (by simp)
      | some r =>
          rw [hm] at h
          cases hrec : collectOutputs gq fo rest m with
          | none => rw [hrec] at h; exact absurd h (by simp)
          | some rs =>
              rw [hrec] at h
              simp only [Option.some.injEq] at h
              subst h
              cases i using Fin.cases with
              | zero => exact ⟨r, hm, by simp⟩
              | succ j =>
                  obtain ⟨res, hres, hget⟩ := ih m rs hrec j
                  exact ⟨res, hres, by simpa using hget⟩

theorem collectOutputs_missing {TObj TQ TR TRes : Type} (gq : TObj → TQ)
    (fo : TObj → TR → TRes) :
    ∀ (objs : List TObj) (m : TQ → Option TR) (o : TObj),
      o ∈ objs → m (gq o) = none → collectOutputs gq fo objs m = none := by
  intro objs
  induction objs with
  | nil => intro m o ho; exact absurd ho (by simp)
  | cons a rest ih =>
      intro m o ho hmiss
      simp only [collectOutputs]
      rcases List.mem_cons.mp ho with rfl | hmem
      · rw [hmiss]
      · rw [ih m o hmem hmiss]
        cases m (gq a) <;> rfl

/-- C3: for every input item entering the batch-RPC operator, exactly one
of the following happens: exactly one output is emitted for it (via
`formatOutput`), or `emitErrors` is invoked exactly once for it; no item
is silently dropped and no item gets both an output and an error emission.
The per-batch step returns `(outputs, error-emitted objects)`: either the
error list is exactly the batch and nothing is output, or nothing is
error-emitted and the `i`-th output is `formatOutput` of the `i`-th item
and its result. -/
theorem batchRpcStep_totality {TObj TQ TR TRes RpcError : Type} (gq : TObj → TQ)
    (fo : TObj → TR → TRes) (objs : List TObj)
    (callResult : Except RpcError (TQ → Option TR)) :
    batchRpcStep gq fo objs callResult = ([], objs) ∨
    (∃ m, callResult = Except.ok m ∧
      (batchRpcStep gq fo objs callResult).2 = [] ∧
      (batchRpcStep gq fo objs callResult).1.length = objs.length ∧
      ∀ i : Fin objs.length, ∃ res, m (gq (objs.get i)) = some res ∧
        (batchRpcStep gq fo objs callResult).1[i.val]? = some (fo (objs.get i) res)) := by
  cases callResult with
  | error e => exact Or.inl rfl
  | ok m =>
      cases hc : collectOutputs gq fo objs m with
      | none => exact Or.inl (by simp [batchRpcStep, hc])
      | some outs =>
          refine Or.inr ⟨m, rfl, ?_, ?_, ?_⟩
          · simp [batchRpcStep, hc]
          · simpa [batchRpcStep, hc] using collectOutputs_length gq fo objs m outs hc
          · intro i
            obtain ⟨res, hres, hget⟩ := collectOutputs_get gq fo objs m outs hc i
            exact ⟨res, hres, by simpa [batchRpcStep, hc] using hget⟩

/-- C4 counterexample: when `processBatch` succeeds but the returned map
lacks a result for an item's query, `batchRpcCalls$` does not abort: the
thrown `ProgrammerError` is caught by the batch-level `catch`, which calls
`emitErrors` on every item of the batch and emits no output. -/
theorem batchRpcStep_missingResult_eval :
    @batchRpcStep Nat Nat Nat Nat Unit (fun n : Nat => n) (fun n r : Nat => n + r) [7]
      (Except.ok (fun _ => none)) = ([], [7]) := rfl

/-- C4 amended: in the batch-RPC operator, when `processBatch` succeeds but
the returned map lacks a result for some item's query, a `ProgrammerError`
is raised but immediately caught by the batch-level error handler, which
converts it into `emitErrors` for every item of the batch (exactly as a
transient batch failure) and emits no output; the pipeline run
continues. -/
theorem batchRpcStep_missingResult {TObj TQ TR TRes RpcError : Type} (gq : TObj → TQ)
    (fo : TObj → TR → TRes) (objs : List TObj) (m : TQ → Option TR) (o : TObj)
    (ho : o ∈ objs) (hmiss : m (gq o) = none) :
    @batchRpcStep TObj TQ TR TRes RpcError gq fo objs (Except.ok m) = ([], objs) := by
  simp [batchRpcStep, collectOutputs_missing gq fo objs m o ho hmiss]

/-- Witness for the amended C4 theorem at a concrete batch. -/
theorem batchRpcStep_missingResult_witness :
    @batchRpcStep Nat Nat Nat Nat Unit (fun n : Nat => n) (fun n r : Nat => n + r) [3, 4]
      (Except.ok (fun q => if q = 3 then some 5 else none)) = ([], [3, 4]) :=
  batchRpcStep_missingResult _ _ _ _ 4 (by decide) rfl

/-! ### C1: retry ordering in `restrictRangesWithImportState` -/

/-- C1: the planner's range-restriction step is claimed to append the
`toRetry` ranges sorted oldest-first after the newest-first primary
ranges.  Evaluating both source variants on an import state with
`toRetry = [[10,12],[20,22]]` and no primary work: the variant at
`import-queries.ts` lines 267-294 sorts the retries and then reverses
them — despite its own "retry oldest first" comment — emitting
`[[20,22],[10,12]]` (newest first); the variant at lines 569-592 leaves
the stored order `[[20,22],[10,12]]` untouched.  Neither emits the
oldest-first order `[[10,12],[20,22]]`. -/
theorem restrictRanges_retryOrder_eval :
    restrictRangesWithImportState [] [] [⟨10, 12⟩, ⟨20, 22⟩] 100 100 = [⟨20, 22⟩, ⟨10, 12⟩] ∧
    restrictRangesWithImportStateOld [] [] [⟨20, 22⟩, ⟨10, 12⟩] 100 100 = [⟨20, 22⟩, ⟨10, 12⟩] ∧
    ([⟨20, 22⟩, ⟨10, 12⟩] : List NRange) ≠ [⟨10, 12⟩, ⟨20, 22⟩] := by
  decide

/-! ### C5: same-block in/out transfer merging -/

/-- C5: for same-block in-and-out transfers of 30 (in, logIndex 1, hash
"txA") and 100 (out, logIndex 2, hash "txB") for one owner and token, the
fetcher merges the two records into one.  The transaction hash is indeed
taken from the highest-logIndex event ("txB"), but the net sum −70 is
stored in the extra field `sharesBalanceDiff`, while the record's
`amountTransfered` — the field declared by the `ERC20Transfer` interface
and read by every consumer — keeps the highest-logIndex leg's own amount
−100, not the claimed net −70. -/
theorem transferMerge_eval :
    mergeTransfersByOwnerAndBlock
        [⟨"bsc", "T", 18, "O", 50, "txA", 30, 1⟩, ⟨"bsc", "T", 18, "O", 50, "txB", -100, 2⟩] =
      [⟨⟨"bsc", "T", 18, "O", 50, "txB", -100, 2⟩, -70⟩] ∧
    (⟨⟨"bsc", "T", 18, "O", 50, "txB", -100, 2⟩, -70⟩ : MergedTransfer).amountTransfered = -100 ∧
    (⟨⟨"bsc", "T", 18, "O", 50, "txB", -100, 2⟩, -70⟩ : MergedTransfer).sharesBalanceDiff = -70 ∧
    (-100 : Int) ≠ -70 := by
  decide

/-! ### C7: batch capacity from endpoint limitations -/

theorem batchConfigLoop_break (methodLimitations : RpcCallMethod → Option Nat) :
    ∀ (l : List (RpcCallMethod × Nat)) (cap : Nat),
      (l.any fun p => 0 < p.2 && (methodLimitations p.1).isNone) = true →
      (batchConfigLoop methodLimitations l cap).2 = false := by
  intro l
  induction l with
  | nil => intro cap h; simp at h
  | cons p rest ih =>
      intro cap h
      obtain ⟨m, count⟩ := p
      simp only [List.any_cons, Bool.or_eq_true] at h
      by_cases hc : count = 0
      · subst hc
        simp only [batchConfigLoop]
        exact ih cap (by simpa using h)
      · simp only [batchConfigLoop, if_neg hc]
        cases hm : methodLimitations m with
        | none => rfl
        | some k =>
            refine ih _ ?_
            rcases h with h | h
            · rw [hm] at h; simp at h
            · simpa using h

theorem batchConfigLoop_noBreak (methodLimitations : RpcCallMethod → Option Nat) :
    ∀ (l : List (RpcCallMethod × Nat)) (cap : Nat),
      (l.any fun p => 0 < p.2 && (methodLimitations p.1).isNone) = false →
      batchConfigLoop methodLimitations l cap =
        (l.foldl (fun cap p =>
            if p.2 = 0 then cap else min cap ((methodLimitations p.1).getD 0 / p.2)) cap,
          true) := by
  intro l
  induction l with
  | nil => intro cap _; rfl
  | cons p rest ih =>
      intro cap h
      obtain ⟨m, count⟩ := p
      simp only [List.any_cons, Bool.or_eq_false_iff] at h
      by_cases hc : count = 0
      · subst hc
        simpa [batchConfigLoop] using ih cap h.2
      · cases hm : methodLimitations m with
        | none =>
            exfalso
            have := h.1
            rw [hm] at this
            simp [Nat.pos_of_ne_zero hc] at this
        | some k =>
            simp only [batchConfigLoop, if_neg hc, hm]
            simpa [hc, hm] using ih (min cap (k / count)) h.2

/-- C7: the batch capacity is computed exactly as the claim describes:
starting from `maxInputTake`, `cap ← min(cap, ⌊limits.methods[m] /
count⌋)` for each declared method with `count > 0`; if any used method's
limit is null, batching is disabled and `cap = max(1, ⌊maxInputTake /
10⌋)` when `minDelayBetweenCalls` is `no-limit`, else `cap = 1`
(`batchConfigSpec` transcribes the claim).  In particular 10 items against
`methods.eth_getLogs = 5` with one call per item yield capacity 5. -/
theorem getBatchConfig_correct :
    (∀ (maxInputTake : Nat) (rpcCallsPerInputObj : List (RpcCallMethod × Nat))
        (methodLimitations : RpcCallMethod → Option Nat) (minDelayBetweenCalls : Option Nat),
        getBatchConfigFromLimitations maxInputTake rpcCallsPerInputObj methodLimitations
            minDelayBetweenCalls =
          batchConfigSpec maxInputTake rpcCallsPerInputObj methodLimitations
            minDelayBetweenCalls) ∧
    getBatchConfigFromLimitations 10 [(RpcCallMethod.eth_getLogs, 1)]
        (fun m => match m with | RpcCallMethod.eth_getLogs => some 5 | _ => none)
        (some 100) =
      ⟨5, true⟩ := by
  constructor
  · intro maxInputTake l lims delay
    unfold getBatchConfigFromLimitations batchConfigSpec
    cases hany : (l.any fun p => 0 < p.2 && (lims p.1).isNone) with
    | true =>
        have h2 := batchConfigLoop_break lims l maxInputTake hany
        simp only [hany, if_true]
        cases hloop : batchConfigLoop lims l maxInputTake with
        | mk cap canUse =>
            rw [hloop] at h2
            simp only at h2
            subst h2
            rfl
    | false =>
        have h2 := batchConfigLoop_noBreak lims l maxInputTake hany
        simp [h2, hany]
  · decide

/-! ### C8: retry of the import-state update transaction -/

theorem backOffRun_allConnectionTimeout {α : Type}
    (att : Nat → Except DbUpdateError (List α)) :
    ∀ (fuel i : Nat), (∀ j, j < i + fuel + 1 → att j = .error .connectionTimeout) →
      backOffRun att updateImportStateRetryOn fuel i =
        (.error .connectionTimeout, i + fuel + 1) := by
  intro fuel
  induction fuel with
  | zero =>
      intro i h
      simp only [backOffRun, h i (by omega)]
  | succ fuel ih =>
      intro i h
      have hre := ih (i + 1) (fun j hj => h j (by omega))
      have harith : i + 1 + fuel + 1 = i + (fuel + 1) + 1 := by omega
      rw [harith] at hre
      simp only [backOffRun, h i (by omega), updateImportStateRetryOn, if_pos, hre]

/-- C8: a batch entering the import-state update retries its transaction
on `ConnectionTimeoutError` up to `numOfAttempts = 10` times (jittered
backoff, 500 ms starting delay, 1 s cap, under a 5 s connect and 2 s query
timeout); when every attempt fails with `ConnectionTimeoutError`, exactly
10 attempts are made, `emitErrors` receives every item of the batch, and
no import state is written. -/
theorem updateImportState_retryExhaustion {Item State : Type} (items : List Item)
    (att : Nat → Except DbUpdateError (List State))
    (h : ∀ j, j < 10 → att j = .error .connectionTimeout) :
    updateImportStateStep items att = .ok ⟨items, [], 10⟩ ∧
    updateImportStateBackoffConfig.numOfAttempts = 10 ∧
    updateImportStateBackoffConfig.startingDelay = 500 ∧
    updateImportStateBackoffConfig.maxDelay = 1000 ∧
    updateImportStateBackoffConfig.jitter = "full" ∧
    updateImportStateRetryOn .connectionTimeout = true ∧
    updateImportStateRetryOn .other = false ∧
    updateImportStateConnectTimeoutMs = 5000 ∧
    updateImportStateQueryTimeoutMs = 2000 := by
  refine ⟨?_, rfl, rfl, rfl, rfl, rfl, rfl, rfl, rfl⟩
  have hrun : backOffRun att updateImportStateRetryOn
      (updateImportStateBackoffConfig.numOfAttempts - 1) 0 =
      (.error .connectionTimeout, 10) :=
    backOffRun_allConnectionTimeout att 9 0 (fun j hj => h j (by omega))
  unfold updateImportStateStep backOff
  rw [hrun]

/-- Witness for the C8 theorem: a batch of three items against a database
that times out on every attempt. -/
theorem updateImportState_retryExhaustion_witness :
    updateImportStateStep [1, 2, 3]
        (fun _ => (.error .connectionTimeout : Except DbUpdateError (List Nat))) =
      .ok ⟨[1, 2, 3], [], 10⟩ :=
  (updateImportState_retryExhaustion [1, 2, 3] _ (fun _ _ => rfl)).1

/-! ### C9: monotonicity of `chainLatestBlockNumber` -/

theorem foldl_max_comm (l : List Int) : ∀ x y, l.foldl max (max x y) = max x (l.foldl max y) := by
  induction l with
  | nil => intro x y; rfl
  | cons a l ih =>
      intro x y
      simp only [List.foldl_cons]
      rw [max_assoc, ih]

theorem le_foldl_max (l : List Int) : ∀ x, x ≤ l.foldl max x := by
  induction l with
  | nil => intro x; exact le_rfl
  | cons a l ih =>
      intro x
      exact le_trans (le_max_left x a) (ih (max x a))

theorem mergeImportStateChainLatest_eq_foldl (previous : Int)
    (items : List ImportRangeResultItem) :
    mergeImportStateChainLatest previous items =
      (items.map (fun i => i.latest)).foldl max previous := by
  unfold mergeImportStateChainLatest rangeValueMax
  cases hl : items.map (fun i => i.latest) with
  | nil => rfl
  | cons a rest =>
      show (rest ++ [previous]).foldl max a = List.foldl max previous (a :: rest)
      rw [List.foldl_append]
      simp only [List.foldl_cons, List.foldl_nil]
      rw [foldl_max_comm rest previous a]
      exact max_comm _ _

/-- C9: after `updateImportState$` on a `product:investment` or
`product:share-rate` import state, `chainLatestBlockNumber` equals the
maximum of the previous value and all items' reported `latest` block
numbers, it never decreases at one update, and it never decreases across
any sequence of updates. -/
theorem chainLatestBlockNumber_monotone :
    (∀ (previous : Int) (items : List ImportRangeResultItem),
        mergeImportStateChainLatest previous items =
          (items.map (fun i => i.latest)).foldl max previous) ∧
    (∀ (previous : Int) (items : List ImportRangeResultItem),
        previous ≤ mergeImportStateChainLatest previous items) ∧
    (∀ (previous : Int) (seq : List (List ImportRangeResultItem)),
        previous ≤ seq.foldl mergeImportStateChainLatest previous) := by
  have hone : ∀ (previous : Int) (items : List ImportRangeResultItem),
      previous ≤ mergeImportStateChainLatest previous items := by
    intro previous items
    rw [mergeImportStateChainLatest_eq_foldl]
    exact le_foldl_max _ previous
  refine ⟨mergeImportStateChainLatest_eq_foldl, hone, ?_⟩
  intro previous seq
  induction seq generalizing previous with
  | nil => exact le_rfl
  | cons items seq ih =>
      exact le_trans (hone previous items) (ih (mergeImportStateChainLatest previous items))

/-! ### C10: latest-block query fallback when nothing was imported -/

/-- C10: in `addLatestBlockQuery$` with `getLastImportedBlock` returning
`null`, the range width falls back to
`min(CHAIN_RPC_MAX_QUERY_BLOCKS, ⌊1 hour / MS_PER_BLOCK_ESTIMATE⌋)` and
the emitted range is exactly `{from: head − width − 5, to: head − 5}`;
no clamping to zero or to the contract creation block happens — at
`head = 0` the bounds go negative. -/
theorem latestBlockQuery_nullFallback :
    (∀ (maxBlocksPerQuery msPerBlockEstimate : Nat) (head : Int),
        latestBlockQuery maxBlocksPerQuery msPerBlockEstimate none head =
          ⟨head - (min maxBlocksPerQuery (samplingPeriod1hourMs / msPerBlockEstimate) : Nat) - 5,
            head - 5⟩) ∧
    latestBlockQuery 40 1000 none 0 = ⟨-45, -5⟩ := by
  constructor
  · intro maxBlocksPerQuery msPerBlockEstimate head
    unfold latestBlockQuery waitForBlockPropagation
    simp [Nat.cast_min]
  · decide

/-! ### Range-algebra lemmas used by the C2 and C6 theorems -/

theorem mem_orderedInsertByFrom {x a : NRange} :
    ∀ {l : List NRange}, a ∈ orderedInsertByFrom x l ↔ a = x ∨ a ∈ l := by
  intro l
  induction l with
  | nil => simp [orderedInsertByFrom]
  | cons y rest ih =>
      simp only [orderedInsertByFrom]
      split
      · simp [List.mem_cons]
      · simp only [List.mem_cons, ih]
        tauto

theorem mem_rangeSortAux :
    ∀ (l acc : List NRange) (a : NRange),
      a ∈ l.foldl (fun acc x => orderedInsertByFrom x acc) acc ↔ a ∈ l ∨ a ∈ acc := by
  intro l
  induction l with
  | nil => simp
  | cons x rest ih =>
      intro acc a
      simp only [List.foldl_cons]
      rw [ih]
      rw [mem_orderedInsertByFrom]
      simp only [List.mem_cons]
      tauto

theorem mem_rangeSort {a : NRange} {l : List NRange} : a ∈ rangeSort l ↔ a ∈ l := by
  unfold rangeSort
  rw [mem_rangeSortAux]
  simp

theorem pairwise_orderedInsertByFrom {x : NRange} :
    ∀ {l : List NRange}, l.Pairwise (fun a b => a.frm ≤ b.frm) →
      (orderedInsertByFrom x l).Pairwise (fun a b => a.frm ≤ b.frm) := by
  intro l
  induction l with
  | nil => intro _; simp [orderedInsertByFrom]
  | cons y rest ih =>
      intro h
      rw [List.pairwise_cons] at h
      simp only [orderedInsertByFrom]
      split
      · rename_i hx
        refine List.Pairwise.cons ?_ (List.Pairwise.cons h.1 h.2)
        intro b hb
        rcases List.mem_cons.mp hb with rfl | hb
        · exact le_of_lt hx
        · exact le_trans (le_of_lt hx) (h.1 b hb)
      · rename_i hx
        refine List.Pairwise.cons ?_ (ih h.2)
        intro b hb
        rcases mem_orderedInsertByFrom.mp hb with rfl | hb
        · exact le_of_not_lt hx
        · exact h.1 b hb

theorem pairwise_rangeSortAux :
    ∀ (l acc : List NRange), acc.Pairwise (fun a b => a.frm ≤ b.frm) →
      (l.foldl (fun acc x => orderedInsertByFrom x acc) acc).Pairwise
        (fun a b => a.frm ≤ b.frm) := by
  intro l
  induction l with
  | nil => intro acc h; exact h
  | cons x rest ih =>
      intro acc h
      simp only [List.foldl_cons]
      exact ih _ (pairwise_orderedInsertByFrom h)

theorem pairwise_rangeSort (l : List NRange) :
    (rangeSort l).Pairwise (fun a b => a.frm ≤ b.frm) :=
  pairwise_rangeSortAux l [] (by simp)

theorem rangeMergeGo_head :
    ∀ (l : List NRange) (cur : NRange),
      ∃ t rest', rangeMergeGo cur l = ⟨cur.frm, t⟩ :: rest' := by
  intro l
  induction l with
  | nil => intro cur; exact ⟨cur.toB, [], rfl⟩
  | cons x rest ih =>
      intro cur
      simp only [rangeMergeGo]
      split
      · obtain ⟨t, rest', h⟩ := ih ⟨cur.frm, max cur.toB x.toB⟩
        exact ⟨t, rest', h⟩
      · exact ⟨cur.toB, rangeMergeGo x rest, rfl⟩

theorem chain'_rangeMergeGo :
    ∀ (l : List NRange) (cur : NRange),
      (rangeMergeGo cur l).Chain' (fun a b => a.toB + 1 < b.frm) := by
  intro l
  induction l with
  | nil => intro cur; simp [rangeMergeGo]
  | cons x rest ih =>
      intro cur
      by_cases hx : x.frm ≤ cur.toB + 1
      · simpa only [rangeMergeGo, if_pos hx] using ih ⟨cur.frm, max cur.toB x.toB⟩
      · simp only [rangeMergeGo, if_neg hx]
        obtain ⟨t, rest', hh⟩ := rangeMergeGo_head rest x
        have hchain := ih x
        rw [hh] at hchain ⊢
        exact List.chain'_cons.mpr ⟨by simp; omega, hchain⟩

theorem valid_rangeMergeGo :
    ∀ (l : List NRange) (cur : NRange), isValidRange cur → (∀ r ∈ l, isValidRange r) →
      ∀ r ∈ rangeMergeGo cur l, isValidRange r := by
  intro l
  induction l with
  | nil =>
      intro cur hc _ r hr
      simp only [rangeMergeGo, List.mem_singleton] at hr
      subst hr
      exact hc
  | cons x rest ih =>
      intro cur hc hall
      by_cases hx : x.frm ≤ cur.toB + 1
      · simp only [rangeMergeGo, if_pos hx]
        refine ih _ ?_ (fun r hr => hall r (List.mem_cons_of_mem _ hr))
        show (⟨cur.frm, max cur.toB x.toB⟩ : NRange).frm ≤ _
        exact le_trans hc (le_max_left _ _)
      · simp only [rangeMergeGo, if_neg hx]
        intro r hr
        rcases List.mem_cons.mp hr with rfl | hr
        · exact hc
        · exact ih x (hall x (List.mem_cons_self _ _))
            (fun r hr => hall r (List.mem_cons_of_mem _ hr)) r hr

theorem chain'_gap_head :
    ∀ (l : List NRange) (a : NRange), (∀ r ∈ l, isValidRange r) →
      (a :: l).Chain' (fun a b => a.toB + 1 < b.frm) →
      ∀ b ∈ l, a.toB + 1 < b.frm := by
  intro l
  induction l with
  | nil => intro a _ _ b hb; simp at hb
  | cons x rest ih =>
      intro a hv hc b hb
      have hax : a.toB + 1 < x.frm := (List.chain'_cons.mp hc).1
      rcases List.mem_cons.mp hb with rfl | hb
      · exact hax
      · have hxb := ih x (fun r hr => hv r (List.mem_cons_of_mem _ hr))
          (List.chain'_cons.mp hc).2 b hb
        have hvx : isValidRange x := hv x (List.mem_cons_self _ _)
        unfold isValidRange at hvx
        omega

theorem chain'_gap_pairwise :
    ∀ (l : List NRange), (∀ r ∈ l, isValidRange r) →
      l.Chain' (fun a b => a.toB + 1 < b.frm) →
      l.Pairwise (fun a b => a.toB + 1 < b.frm) := by
  intro l
  induction l with
  | nil => intro _ _; simp
  | cons a l ih =>
      intro hv hc
      refine List.pairwise_cons.mpr
        ⟨chain'_gap_head l a (fun r hr => hv r (List.mem_cons_of_mem _ hr)) hc,
          ih (fun r hr => hv r (List.mem_cons_of_mem _ hr)) hc.tail⟩

theorem coveredBy_rangeMergeGo_sub :
    ∀ (l : List NRange) (cur : NRange) (v : Int),
      coveredBy (rangeMergeGo cur l) v → isInRange cur v ∨ coveredBy l v := by
  intro l
  induction l with
  | nil =>
      intro cur v h
      obtain ⟨r, hr, hir⟩ := h
      simp only [rangeMergeGo, List.mem_singleton] at hr
      subst hr
      exact Or.inl hir
  | cons x rest ih =>
      intro cur v h
      by_cases hx : x.frm ≤ cur.toB + 1
      · simp only [rangeMergeGo, if_pos hx] at h
        rcases ih _ v h with hcur | ⟨r, hr, hir⟩
        · unfold isInRange at hcur ⊢
          simp only at hcur
          by_cases hvc : v ≤ cur.toB
          · exact Or.inl ⟨hcur.1, hvc⟩
          · refine Or.inr ⟨x, List.mem_cons_self _ _, ?_, ?_⟩
            · omega
            · have := hcur.2
              simp only [le_max_iff] at this
              omega
        · exact Or.inr ⟨r, List.mem_cons_of_mem _ hr, hir⟩
      · simp only [rangeMergeGo, if_neg hx] at h
        obtain ⟨r, hr, hir⟩ := h
        rcases List.mem_cons.mp hr with rfl | hr
        · exact Or.inl hir
        · rcases ih x v ⟨r, hr, hir⟩ with hx' | ⟨r', hr', hir'⟩
          · exact Or.inr ⟨x, List.mem_cons_self _ _, hx'⟩
          · exact Or.inr ⟨r', List.mem_cons_of_mem _ hr', hir'⟩

theorem coveredBy_rangeMergeGo_sup :
    ∀ (l : List NRange) (cur : NRange) (v : Int),
      (∀ y ∈ l, cur.frm ≤ y.frm) → l.Pairwise (fun a b => a.frm ≤ b.frm) →
      (isInRange cur v ∨ coveredBy l v) → coveredBy (rangeMergeGo cur l) v := by
  intro l
  induction l with
  | nil =>
      intro cur v _ _ h
      rcases h with h | ⟨r, hr, _⟩
      · exact ⟨cur, by simp [rangeMergeGo], h⟩
      · simp at hr
  | cons x rest ih =>
      intro cur v hfrm hpw h
      by_cases hx : x.frm ≤ cur.toB + 1
      · simp only [rangeMergeGo, if_pos hx]
        refine ih _ v (fun y hy => ?_) (List.Pairwise.of_cons hpw) ?_
        · exact hfrm y (List.mem_cons_of_mem _ hy)
        · rcases h with hcur | ⟨r, hr, hir⟩
          · left
            unfold isInRange at hcur ⊢
            simp only
            exact ⟨hcur.1, le_trans hcur.2 (le_max_left _ _)⟩
          · rcases List.mem_cons.mp hr with rfl | hr
            · left
              unfold isInRange at hir ⊢
              simp only
              refine ⟨le_trans (hfrm r (List.mem_cons_self _ _)) hir.1,
                le_trans hir.2 (le_max_right _ _)⟩
            · exact Or.inr ⟨r, hr, hir⟩
      · simp only [rangeMergeGo, if_neg hx]
        rcases h with hcur | ⟨r, hr, hir⟩
        · exact ⟨cur, List.mem_cons_self _ _, hcur⟩
        · have hrestcase : isInRange x v ∨ coveredBy rest v := by
            rcases List.mem_cons.mp hr with rfl | hr
            · exact Or.inl hir
            · exact Or.inr ⟨r, hr, hir⟩
          obtain ⟨z, hz, hiz⟩ := ih x v
            (fun y hy => (List.pairwise_cons.mp hpw).1 y hy)
            (List.Pairwise.of_cons hpw) hrestcase
          exact ⟨z, List.mem_cons_of_mem _ hz, hiz⟩

theorem coveredBy_rangeMerge (l : List NRange) (v : Int) :
    coveredBy (rangeMerge l) v ↔ coveredBy l v := by
  unfold rangeMerge
  cases hs : rangeSort l with
  | nil =>
      constructor
      · intro h
        obtain ⟨r, hr, _⟩ := h
        simp at hr
      · intro ⟨r, hr, _⟩
        have : r ∈ rangeSort l := mem_rangeSort.mpr hr
        rw [hs] at this
        simp at this
  | cons x rest =>
      have hpw : (x :: rest).Pairwise (fun a b => a.frm ≤ b.frm) := by
        rw [← hs]; exact pairwise_rangeSort l
      constructor
      · intro h
        rcases coveredBy_rangeMergeGo_sub rest x v h with hx | ⟨r, hr, hir⟩
        · refine ⟨x, ?_, hx⟩
          have : x ∈ rangeSort l := by rw [hs]; exact List.mem_cons_self _ _
          exact mem_rangeSort.mp this
        · refine ⟨r, ?_, hir⟩
          have : r ∈ rangeSort l := by rw [hs]; exact List.mem_cons_of_mem _ hr
          exact mem_rangeSort.mp this
      · intro ⟨r, hr, hir⟩
        have hrs : r ∈ x :: rest := by rw [← hs]; exact mem_rangeSort.mpr hr
        refine coveredBy_rangeMergeGo_sup rest x v
          (fun y hy => (List.pairwise_cons.mp hpw).1 y hy)
          (List.Pairwise.of_cons hpw) ?_
        rcases List.mem_cons.mp hrs with rfl | hr'
        · exact Or.inl hir
        · exact Or.inr ⟨r, hr', hir⟩

theorem coveredBy_rangeExclude (r e : NRange) (v : Int) :
    coveredBy (rangeExclude r e) v ↔ (isInRange r v ∧ ¬ isInRange e v) := by
  unfold rangeExclude coveredBy isInRange
  split_ifs with h1 h2 h3 <;> simp_all <;> omega

theorem coveredBy_flatMap_exclude (rs : List NRange) (e : NRange) (v : Int) :
    coveredBy (rs.flatMap (fun r => rangeExclude r e)) v ↔
      coveredBy rs v ∧ ¬ isInRange e v := by
  constructor
  · rintro ⟨z, hz, hiz⟩
    rw [List.mem_flatMap] at hz
    obtain ⟨r, hr, hzr⟩ := hz
    have := (coveredBy_rangeExclude r e v).mp ⟨z, hzr, hiz⟩
    exact ⟨⟨r, hr, this.1⟩, this.2⟩
  · rintro ⟨⟨r, hr, hir⟩, hne⟩
    obtain ⟨z, hz, hiz⟩ := (coveredBy_rangeExclude r e v).mpr ⟨hir, hne⟩
    exact ⟨z, List.mem_flatMap.mpr ⟨r, hr, hz⟩, hiz⟩

theorem coveredBy_rangeArrayExclude :
    ∀ (excl rs : List NRange) (v : Int),
      coveredBy (rangeArrayExclude rs excl) v ↔
        (coveredBy rs v ∧ ∀ e ∈ excl, ¬ isInRange e v) := by
  intro excl
  induction excl with
  | nil => intro rs v; simp [rangeArrayExclude]
  | cons e excl ih =>
      intro rs v
      show coveredBy (rangeArrayExclude (rs.flatMap fun r => rangeExclude r e) excl) v ↔ _
      rw [ih, coveredBy_flatMap_exclude]
      simp only [List.forall_mem_cons]
      tauto

theorem valid_rangeMerge (l : List NRange) (hv : ∀ r ∈ l, isValidRange r) :
    ∀ r ∈ rangeMerge l, isValidRange r := by
  intro r hr
  unfold rangeMerge at hr
  cases hs : rangeSort l with
  | nil => rw [hs] at hr; simp at hr
  | cons x rest =>
      rw [hs] at hr
      have hvs : ∀ r ∈ x :: rest, isValidRange r := by
        intro r' hr'
        refine hv r' (mem_rangeSort.mp ?_)
        rw [hs]; exact hr'
      exact valid_rangeMergeGo rest x (hvs x (List.mem_cons_self _ _))
        (fun r' hr' => hvs r' (List.mem_cons_of_mem _ hr')) r hr

theorem pairwise_rangeMerge_gap (l : List NRange) (hv : ∀ r ∈ l, isValidRange r) :
    (rangeMerge l).Pairwise (fun a b => a.toB + 1 < b.frm) := by
  refine chain'_gap_pairwise _ (valid_rangeMerge l hv) ?_
  unfold rangeMerge
  cases rangeSort l with
  | nil => simp
  | cons x rest => exact chain'_rangeMergeGo rest x

/-! ### C2: import-state range invariants -/

/-- C2 counterexample: a single update with one failed item of range
`[1,5]` over an empty import state leaves `[1,5]` in `coveredRanges` *and*
in `toRetry` (the value 3 lies in both), so `toRetry ∩ coveredRanges = ∅`
fails: `mergeImportState` passes every item's range — failed ones
included — as `coveredRanges` of the update, and the spec's own formula
`toRetry' = merge((toRetry ∪ E) \ S)` keeps the errored range. -/
theorem mergeImportState_notDisjoint_eval :
    (mergeImportStateRanges ⟨0, [], []⟩ [⟨⟨1, 5⟩, false, 0⟩] 7).coveredRanges = [⟨1, 5⟩] ∧
    (mergeImportStateRanges ⟨0, [], []⟩ [⟨⟨1, 5⟩, false, 0⟩] 7).toRetry = [⟨1, 5⟩] ∧
    coveredBy (mergeImportStateRanges ⟨0, [], []⟩ [⟨⟨1, 5⟩, false, 0⟩] 7).coveredRanges 3 ∧
    coveredBy (mergeImportStateRanges ⟨0, [], []⟩ [⟨⟨1, 5⟩, false, 0⟩] 7).toRetry 3 := by
  decide

/-- C2 amended: for every sequence of import-state updates with per-item
success/error flags, the resulting `coveredRanges` is merged (pairwise
non-overlapping, non-adjacent, in increasing order) and valid, and every
value of a range reported as *success* is absent from the resulting
`toRetry` (a retried range that succeeds is removed from `toRetry`);
however a range reported as *error* appears in both `coveredRanges`
(which records attempted work) and `toRetry`, so `toRetry` is not
disjoint from `coveredRanges`. -/
theorem mergeImportState_invariants (cur : ImportRanges)
    (items : List ImportRangeResultItem) (d : Int)
    (hcv : ∀ r ∈ cur.coveredRanges, isValidRange r)
    (hiv : ∀ i ∈ items, isValidRange i.range) :
    (mergeImportStateRanges cur items d).coveredRanges.Pairwise
        (fun a b => a.toB + 1 < b.frm) ∧
    (∀ r ∈ (mergeImportStateRanges cur items d).coveredRanges, isValidRange r) ∧
    (∀ i ∈ items, i.success = true → ∀ v : Int, isInRange i.range v →
        ¬ coveredBy (mergeImportStateRanges cur items d).toRetry v) := by
  have hcovValid : ∀ r ∈ cur.coveredRanges ++ items.map (fun i => i.range), isValidRange r := by
    intro r hr
    rcases List.mem_append.mp hr with hr | hr
    · exact hcv r hr
    · obtain ⟨i, hi, rfl⟩ := List.mem_map.mp hr
      exact hiv i hi
  refine ⟨?_, ?_, ?_⟩
  · exact pairwise_rangeMerge_gap _ hcovValid
  · exact valid_rangeMerge _ hcovValid
  · intro i hi hsucc v hivr hcontra
    have h1 := (coveredBy_rangeMerge _ v).mp hcontra
    have h2 := (coveredBy_rangeArrayExclude _ _ v).mp h1
    have hmemS : i.range ∈ (items.filter (fun i => i.success)).map (fun i => i.range) :=
      List.mem_map.mpr ⟨i, List.mem_filter.mpr ⟨hi, hsucc⟩, rfl⟩
    have hS : coveredBy (rangeMerge ((items.filter (fun i => i.success)).map
        (fun i => i.range))) v :=
      (coveredBy_rangeMerge _ v).mpr ⟨i.range, hmemS, hivr⟩
    obtain ⟨e, he, hie⟩ := hS
    exact h2.2 e he hie

/-- Witness for the amended C2 theorem: a concrete update of one
successful retried range `[10,12]` removes the value 11 from `toRetry`. -/
theorem mergeImportState_invariants_witness :
    ¬ coveredBy (mergeImportStateRanges ⟨0, [⟨1, 5⟩], [⟨10, 12⟩]⟩
        [⟨⟨10, 12⟩, true, 7⟩] 3).toRetry 11 :=
  (mergeImportState_invariants ⟨0, [⟨1, 5⟩], [⟨10, 12⟩]⟩ [⟨⟨10, 12⟩, true, 7⟩] 3
      (by decide) (by decide)).2.2
    ⟨⟨10, 12⟩, true, 7⟩ (by decide) rfl 11 (by decide)

/-! ### Upper-bound lemmas for the C6 theorems -/

theorem toB_le_rangeExclude (r e : NRange) : ∀ z ∈ rangeExclude r e, z.toB ≤ r.toB := by
  intro z hz
  unfold rangeExclude at hz
  by_cases h1 : e.toB < r.frm ∨ r.toB < e.frm
  · rw [if_pos h1] at hz
    simp only [List.mem_singleton] at hz
    subst hz
    exact le_refl _
  · rw [if_neg h1] at hz
    push_neg at h1
    rw [List.mem_append] at hz
    rcases hz with hz | hz
    · by_cases h2 : r.frm < e.frm
      · rw [if_pos h2] at hz
        simp only [List.mem_singleton] at hz
        subst hz
        simp only
        omega
      · rw [if_neg h2] at hz
        simp at hz
    · by_cases h3 : e.toB < r.toB
      · rw [if_pos h3] at hz
        simp only [List.mem_singleton] at hz
        subst hz
        exact le_refl _
      · rw [if_neg h3] at hz
        simp at hz

theorem toB_le_arrayExclude :
    ∀ (excl rs : List NRange) (B : Int), (∀ r ∈ rs, r.toB ≤ B) →
      ∀ z ∈ rangeArrayExclude rs excl, z.toB ≤ B := by
  intro excl
  induction excl with
  | nil => intro rs B h z hz; exact h z hz
  | cons e excl ih =>
      intro rs B h z hz
      refine ih _ B ?_ z hz
      intro r' hr'
      rw [List.mem_flatMap] at hr'
      obtain ⟨r, hr, hr'e⟩ := hr'
      exact le_trans (toB_le_rangeExclude r e r' hr'e) (h r hr)

theorem toB_le_rangeSplitGo (n : Nat) :
    ∀ (fuel : Nat) (r : NRange), ∀ z ∈ rangeSplitGo n fuel r, z.toB ≤ r.toB := by
  intro fuel
  induction fuel with
  | zero =>
      intro r z hz
      simp only [rangeSplitGo, List.mem_singleton] at hz
      subst hz
      exact le_refl _
  | succ fuel ih =>
      intro r z hz
      simp only [rangeSplitGo] at hz
      split_ifs at hz with h1 h2
      · simp only [List.mem_singleton] at hz; subst hz; exact le_refl _
      · simp only [List.mem_singleton] at hz; subst hz; exact le_refl _
      · rcases List.mem_cons.mp hz with rfl | hz
        · simp only
          omega
        · exact ih ⟨r.frm + (n : Int), r.toB⟩ z hz

theorem toB_le_splitMany (rs : List NRange) (n : Nat) (B : Int)
    (h : ∀ r ∈ rs, r.toB ≤ B) :
    ∀ z ∈ rangeSplitManyToMaxLength rs n, z.toB ≤ B := by
  intro z hz
  unfold rangeSplitManyToMaxLength at hz
  rw [List.mem_flatMap] at hz
  obtain ⟨r, hr, hzr⟩ := hz
  exact le_trans (toB_le_rangeSplitGo n _ r z hzr) (h r hr)

theorem toB_le_restrict (ranges coveredRanges toRetry : List NRange)
    (n m : Nat) (B : Int)
    (hr : ∀ r ∈ ranges, r.toB ≤ B) (hretry : ∀ r ∈ toRetry, r.toB ≤ B) :
    ∀ z ∈ restrictRangesWithImportState ranges coveredRanges toRetry n m, z.toB ≤ B := by
  intro z hz
  have hall : ∀ z' ∈ ((rangeSort (rangeSplitManyToMaxLength
      (rangeArrayExclude ranges coveredRanges) n)).reverse ++
      (rangeSort (rangeSplitManyToMaxLength toRetry n)).reverse), z'.toB ≤ B := by
    intro z' hz'
    rcases List.mem_append.mp hz' with hz' | hz'
    · have hz2 := mem_rangeSort.mp (List.mem_reverse.mp hz')
      exact toB_le_splitMany _ n B (toB_le_arrayExclude coveredRanges ranges B hr) z' hz2
    · have hz2 := mem_rangeSort.mp (List.mem_reverse.mp hz')
      exact toB_le_splitMany _ n B hretry z' hz2
  have hsub : restrictRangesWithImportState ranges coveredRanges toRetry n m ⊆
      ((rangeSort (rangeSplitManyToMaxLength
        (rangeArrayExclude ranges coveredRanges) n)).reverse ++
        (rangeSort (rangeSplitManyToMaxLength toRetry n)).reverse) := by
    show (if _ > m then List.take m _ else _) ⊆ _
    split_ifs
    · exact List.take_subset _ _
    · exact List.Subset.refl _
  exact hall z (hsub hz)

theorem toB_le_excludeFromValueUp (rs : List NRange) (b : Int) (B : Int)
    (h : ∀ r ∈ rs, r.toB ≤ B) :
    ∀ z ∈ rangeArrayExcludeFromValueUp rs b, z.toB ≤ B := by
  intro z hz
  unfold rangeArrayExcludeFromValueUp at hz
  rw [List.mem_flatMap] at hz
  obtain ⟨r, hr, hzr⟩ := hz
  unfold rangeExcludeFromValueUp at hzr
  split_ifs at hzr with h1 h2
  · simp only [List.mem_singleton] at hzr
    subst hzr
    exact h _ hr
  · simp only [List.mem_singleton] at hzr
    subst hzr
    have := h r hr
    simp only
    omega
  · simp at hzr

theorem foldl_min_le (l : List Int) : ∀ x, l.foldl min x ≤ x := by
  induction l with
  | nil => intro x; exact le_refl _
  | cons a l ih =>
      intro x
      exact le_trans (ih (min x a)) (min_le_left x a)

/-! ### C6: propagation margin of the planner -/

/-- C6 counterexample: a regular-interval planner invocation with contract
creation block 100, precomputed block list `[100, 200]`, chain head 1000
and an empty import state emits the range `[201, 1000]`, whose block 1000
exceeds `head − P = 995`: the trailing range of
`addRegularIntervalBlockRangesQueries` ends at `latestBlockNumber`
itself, with no propagation margin. -/
theorem regularInterval_head_eval :
    (⟨201, 1000⟩ : NRange) ∈ regularIntervalBlockRanges 100 [100, 200] 1000 [] [] 1000 100 ∧
    isInRange ⟨201, 1000⟩ 1000 ∧ ¬ ((1000 : Int) ≤ 1000 - 5) := by
  decide

/-- C6 amended: latest-block queries never contain a block above
`head − 5`; historical block queries never contain a block above `head − 5`
provided the stored `toRetry` ranges (re-emitted unclamped) stay below
that bound; regular-interval queries however are only bounded by `head`
itself (their trailing range ends at `latestBlockNumber`, not
`head − 5`), given a block list bounded by `head` and so-bounded retry
ranges. -/
theorem plannerHeadBound :
    (∀ (maxBlocksPerQuery msPerBlockEstimate : Nat) (lastImported : Option Int)
        (head v : Int),
        isInRange (latestBlockQuery maxBlocksPerQuery msPerBlockEstimate lastImported head) v →
        v ≤ head - 5) ∧
    (∀ (firstBlockNumber head : Int) (coveredRanges toRetry : List NRange)
        (maxBlocksPerQuery maxRangesPerProduct : Nat) (force : Option Int),
        (∀ r ∈ toRetry, r.toB ≤ head - 5) →
        ∀ z ∈ historicalBlockQuery firstBlockNumber head coveredRanges toRetry
            maxBlocksPerQuery maxRangesPerProduct force,
          ∀ v, isInRange z v → v ≤ head - 5) ∧
    (∀ (contractCreatedAtBlock : Int) (blockListInput : List Int) (head : Int)
        (coveredRanges toRetry : List NRange) (rangeMaxLength maxRangesPerProduct : Nat),
        (∀ b ∈ blockListInput, b ≤ head) →
        (∀ r ∈ toRetry, r.toB ≤ head) →
        ∀ z ∈ regularIntervalBlockRanges contractCreatedAtBlock blockListInput head
            coveredRanges toRetry rangeMaxLength maxRangesPerProduct,
          ∀ v, isInRange z v → v ≤ head) := by
  refine ⟨?_, ?_, ?_⟩
  · intro mq ms li head v hin
    have h2 : (latestBlockQuery mq ms li head).toB = head - 5 := by
      unfold latestBlockQuery waitForBlockPropagation
      cases li with
      | none => rfl
      | some n => rfl
    have := hin.2
    omega
  · intro fb head coveredRanges toRetry mq mr force hretry z hz v hin
    have hmain : ∀ z' ∈ restrictRangesWithImportState
        [⟨fb, head - waitForBlockPropagation⟩] coveredRanges toRetry mq mr,
        z'.toB ≤ head - 5 := by
      refine toB_le_restrict _ _ _ _ _ _ ?_ hretry
      intro r hr
      simp only [List.mem_singleton] at hr
      subst hr
      simp only [waitForBlockPropagation]
      exact le_refl _
    have hz' : z.toB ≤ head - 5 := by
      cases force with
      | none => exact hmain z hz
      | some b =>
          simp only [historicalBlockQuery] at hz
          exact toB_le_excludeFromValueUp _ b (head - 5) hmain z hz
    have := hin.2
    omega
  · intro ca bli head coveredRanges toRetry n m hbl hretry z hz v hin
    unfold regularIntervalBlockRanges at hz
    have hfl : ∀ b ∈ bli.filter (fun b => decide (ca ≤ b)), b ≤ head :=
      fun b hb => hbl b (List.mem_of_mem_filter hb)
    have hz' : z.toB ≤ head := by
      refine toB_le_restrict _ _ _ _ _ _ ?_ hretry z hz
      intro r hr
      have hr' := List.mem_of_mem_filter hr
      revert hr'
      cases hL : bli.filter (fun b => decide (ca ≤ b)) with
      | nil =>
          intro hr'
          simp at hr'
      | cons b bs =>
          intro hr'
          rcases List.mem_cons.mp hr' with rfl | hr''
          · show (bs.foldl min b) - 1 ≤ head
            have h1 : bs.foldl min b ≤ b := foldl_min_le bs b
            have h2 : b ≤ head := by
              refine hfl b ?_
              rw [hL]
              exact List.mem_cons_self _ _
            omega
          · rcases List.mem_append.mp hr'' with hr3 | hr3
            · obtain ⟨p, hp, rfl⟩ := List.mem_map.mp hr3
              have hp2 := (List.of_mem_zip hp).2
              have hp3 : p.2 ∈ b :: bs := List.mem_of_mem_tail hp2
              have : p.2 ≤ head := by
                refine hfl p.2 ?_
                rw [hL]
                exact hp3
              show p.2 - 1 ≤ head
              omega
            · simp only [List.mem_singleton] at hr3
              subst hr3
              exact le_refl _
    have := hin.2
    omega

/-- Witness for the amended C6 theorem: concrete instances of its three
bounds with all hypotheses discharged. -/
theorem plannerHeadBound_witness :
    ((995 : Int) ≤ 1000 - 5) ∧ ((940 : Int) ≤ 1000 - 5) ∧ ((1000 : Int) ≤ 1000) :=
  ⟨plannerHeadBound.1 40 1000 none 1000 995 (by decide),
    plannerHeadBound.2.1 900 1000 [] [] 40 100 none (by decide) ⟨940, 979⟩ (by decide)
      940 (by decide),
    plannerHeadBound.2.2 100 [100, 200] 1000 [] [] 1000 100 (by decide) (by decide)
      ⟨201, 1000⟩ (by decide) 1000 (by decide)⟩

end BeefyBI
